import Mathlib

/-!
Verification of the fetch-and-extract pipeline of the job-search repository.

The development shallowly embeds the two core modules:

* `src/lib/parse.ts` — text sanitization (`cleanText`), listing extraction
  (`extractJobSearchResults`), detail extraction (`extractJobDetail`),
  URL normalization (`normalizeLinkedInUrl`) and total-count parsing
  (`extractNumberFromText`).  DOM queries performed through cheerio are an
  external library; each `$card.find(sel).text()` / `attr(..)` call site is
  modelled as a field of an abstract document record holding the raw string
  that query returns (empty string / `none` for a missing element or
  attribute, exactly as the call sites coerce them).
* `src/lib/scrape.ts` — the in-memory fetch cache, the rate limiter and the
  request-deduplication coordinator.  JavaScript is single threaded: every
  statement sequence between two `await` points runs atomically, so the
  synchronous prefix of `scrape` (cache probe, pending probe, registration)
  is one atomic step `scrapeSync`, and settlement of the underlying fetch
  (`finally { pendingRequests.delete }` plus `setCachedResult` on success)
  is a second atomic step `completeFetch`.  Timers are idealized:
  `setTimeout(ms)` resumes exactly `ms` later, and `Date.now()` is the
  explicit `now` parameter threaded through each step.

Strings are handled through their underlying `List Char`; the character
classes reproduce JavaScript regex classes (`\s`, `\w`, `\d`) without the
`u` flag, as used by the source.
-/

set_option autoImplicit false

namespace JobSearch

/-! ### JavaScript regex character classes -/

/-- JavaScript `\s` (also the class removed by `String.prototype.trim`):
tab, LF, VT, FF, CR, space, NBSP, and the Unicode space separators. -/
def jsWs (c : Char) : Bool :=
  c = ' ' || c = '\t' || c = '\n' || c.toNat = 0x0b || c.toNat = 0x0c ||
  c = '\r' || c.toNat = 0xa0 || c.toNat = 0x1680 ||
  (0x2000 ≤ c.toNat && c.toNat ≤ 0x200a) ||
  c.toNat = 0x2028 || c.toNat = 0x2029 || c.toNat = 0x202f ||
  c.toNat = 0x205f || c.toNat = 0x3000 || c.toNat = 0xfeff

/-- JavaScript `\w` (no `u` flag): `[A-Za-z0-9_]`. -/
def isWordChar (c : Char) : Bool :=
  ('a' ≤ c && c ≤ 'z') || ('A' ≤ c && c ≤ 'Z') || ('0' ≤ c && c ≤ '9') || c = '_'

/-- JavaScript `\d`: `[0-9]`. -/
def isDigitChar (c : Char) : Bool := '0' ≤ c && c ≤ '9'

/-- The allow-list of `cleanText`'s final strip
`replace(/[^\w\s\-.,!?()&$+]/g, '')` (parse.ts:80): word characters,
whitespace, and the fixed punctuation set. -/
def allowedChar (c : Char) : Bool :=
  isWordChar c || jsWs c ||
  c = '-' || c = '.' || c = ',' || c = '!' || c = '?' ||
  c = '(' || c = ')' || c = '&' || c = '$' || c = '+'

/-! ### cleanText (parse.ts:73-82) -/

/-- Does `p` occur at the head of `l`? -/
def startsWithL : List Char → List Char → Bool
  | [], _ => true
  | _ :: _, [] => false
  | p :: ps, c :: cs => p = c && startsWithL ps cs

/-- The comment opener `<!--`. -/
def commentOpen : List Char := ['<', '!', '-', '-']

/-- The comment closer `-->`. -/
def commentClose : List Char := ['-', '-', '>']

/-- Skip to just after the earliest occurrence of `-->` (the lazy
`[\s\S]*?` of the comment regex stops at the nearest closer). -/
def dropToCommentClose : List Char → Option (List Char)
  | [] => none
  | c :: cs =>
    if startsWithL commentClose (c :: cs) then some (cs.drop 2)
    else dropToCommentClose cs

/-- One left-to-right pass of `replace(/<!--[\s\S]*?-->/g, '')`
(parse.ts:77): at `<!--`, if a closing `-->` follows, delete through it and
continue after; with no closer the regex has no match starting here and the
scan moves one character on.  The `Nat` argument is structural fuel, always
instantiated with the length of the list. -/
def removeCommentsAux : Nat → List Char → List Char
  | 0, l => l
  | _ + 1, [] => []
  | fuel + 1, c :: cs =>
    if startsWithL commentOpen (c :: cs) then
      match dropToCommentClose (cs.drop 3) with
      | some rest => removeCommentsAux fuel rest
      | none => c :: removeCommentsAux fuel cs
    else c :: removeCommentsAux fuel cs

/-- `replace(/<!--[\s\S]*?-->/g, '')` (parse.ts:77). -/
def removeComments (l : List Char) : List Char := removeCommentsAux l.length l

/-- `replace(/\s+/g, ' ')` (parse.ts:79): every maximal whitespace run
becomes one space.  The flag records whether the scan is inside a run whose
replacement space was already emitted. -/
def collapseWsAux : Bool → List Char → List Char
  | _, [] => []
  | inRun, c :: cs =>
    if jsWs c then
      if inRun then collapseWsAux true cs else ' ' :: collapseWsAux true cs
    else c :: collapseWsAux false cs

/-- `replace(/\s+/g, ' ')` (parse.ts:79). -/
def collapseWs (l : List Char) : List Char := collapseWsAux false l

/-- `String.prototype.trim`: drop leading and trailing whitespace. -/
def trimL (l : List Char) : List Char :=
  ((l.dropWhile jsWs).reverse.dropWhile jsWs).reverse

/-- JavaScript `String.prototype.trim` on a `String`. -/
def jsTrim (s : String) : String := String.mk (trimL s.data)

/-- Body of `cleanText` (parse.ts:76-81): remove comments, remove
asterisks (`replace(/\*+/g, '')`), collapse whitespace, strip characters
outside the allow-list, trim. -/
def cleanTextL (l : List Char) : List Char :=
  trimL (List.filter allowedChar
    (collapseWs (List.filter (fun c => c != '*') (removeComments l))))

/-- `cleanText` (parse.ts:73-82), including the falsy guard
`if (!text) return ''`. -/
def cleanText (s : String) : String :=
  if s = "" then "" else String.mk (cleanTextL s.data)

/-- JavaScript `a || b` on strings (empty string is falsy). -/
def strOr (a b : String) : String := if a = "" then b else a

/-- JavaScript `a || b` where both operands are `string | undefined`
(`undefined` and `''` are falsy). -/
def jsOrOpt (a b : Option String) : Option String :=
  match a with
  | some s => if s = "" then b else some s
  | none => b

/-! ### normalizeLinkedInUrl (parse.ts:217-221) -/

/-- `normalizeLinkedInUrl`: empty stays empty; `url.startsWith('/')`
(first character `/`) prepends the fixed origin; otherwise unchanged. -/
def normalizeLinkedInUrl (url : String) : String :=
  if url = "" then ""
  else
    match url.data with
    | c :: _ => if c = '/' then "https://www.linkedin.com" ++ url else url
    | [] => url

/-! ### extractNumberFromText (parse.ts:223-228)

The regex `/(\d{1,3}(?:,\d{3})*)\+?/` matches at the first position whose
character is a digit (the quantifiers after `\d{1,3}` can all be empty, so
no backtracking changes the match).  `\d{1,3}` greedily takes up to three
digits, then `(?:,\d{3})*` greedily takes comma-plus-three-digit groups. -/

/-- Value of a digit string, as `parseInt(_, 10)` on digits. -/
def digitsVal (l : List Char) : Nat :=
  l.foldl (fun n c => n * 10 + (c.toNat - 48)) 0

/-- Greedy `\d{1,n}`-style scan: up to `n` leading digits, plus the rest. -/
def takeDigitsUpTo : Nat → List Char → List Char × List Char
  | 0, l => ([], l)
  | _ + 1, [] => ([], [])
  | n + 1, c :: cs =>
    if isDigitChar c then
      let p := takeDigitsUpTo n cs
      (c :: p.1, p.2)
    else ([], c :: cs)

/-- Greedy `(?:,\d{3})*`: comma-separated three-digit groups, kept with
their commas exactly as the capture group records them. -/
def takeThousandsGroups : List Char → List Char
  | ',' :: a :: b :: c :: rest =>
    if isDigitChar a && isDigitChar b && isDigitChar c then
      ',' :: a :: b :: c :: takeThousandsGroups rest
    else []
  | _ => []

/-- The capture group `\d{1,3}(?:,\d{3})*` matched at this position. -/
def groupedDigitsAt (l : List Char) : List Char :=
  let p := takeDigitsUpTo 3 l
  p.1 ++ takeThousandsGroups p.2

/-- Leftmost match of the count regex: the scan succeeds at the first
digit position. -/
def findFirstNumber : List Char → Option (List Char)
  | [] => none
  | c :: cs =>
    if isDigitChar c then some (groupedDigitsAt (c :: cs))
    else findFirstNumber cs

/-- `extractNumberFromText` (parse.ts:223-228):
`match[1].replace(/,/g, '')` then `parseInt(_, 10)`; `undefined` when the
text is falsy or the regex does not match. -/
def extractNumberFromText (s : String) : Option Nat :=
  if s = "" then none
  else (findFirstNumber s.data).map
    (fun g => digitsVal (g.filter (fun c => c != ',')))

/-! ### Listing extraction (parse.ts:117-215)

A listing document is modelled after cheerio parsing: each selector call
site of `extractJobSearchResults` becomes a field holding the raw string
that the query returns on this document (a missing element yields `""`
from `.text()`, and a missing `href` attribute is modelled as `""`, the
value the source coerces it to with `|| ''`). -/

/-- One element matched by the primary card selector union
`JOB_CARD_SELECTORS` (parse.ts:41-46), with the raw query results of every
per-card call site, in source order: the three `TITLE_SELECTORS` texts, the
title fallback (`a[data-tracking-control-name*="job"] span`, parse.ts:131),
the three `COMPANY_SELECTORS` texts, the company fallback
(`a[data-tracking-control-name*="company"]`, parse.ts:137), the card link
`href` (parse.ts:146, `|| ''` applied), and the location, posted-time,
salary, job-type and snippet texts (parse.ts:147-151). -/
structure SearchCard where
  titleSelTexts : List String
  titleFallbackText : String
  companySelTexts : List String
  companyFallbackText : String
  fullLinkHref : String
  locationText : String
  postedTimeText : String
  salaryText : String
  jobTypeText : String
  descriptionText : String
deriving Repr, DecidableEq

/-- One element matched by the similar-jobs fallback selector
(parse.ts:179), with its raw query results (parse.ts:184-193). -/
structure SimilarCard where
  titleText : String
  companyText : String
  fullLinkHref : String
  locationText : String
  salaryText : String
  postedTimeText : String
deriving Repr, DecidableEq

/-- A parsed listing document: the primary cards and similar-jobs cards in
document order, and the concatenated text of the total-results header
elements (parse.ts:169). -/
structure ListingDoc where
  cards : List SearchCard
  similarCards : List SimilarCard
  totalResultsText : String
deriving Repr, DecidableEq

/-- `JobSearchResult` (parse.ts:17-26).  The optional fields are always
assigned (possibly empty) strings by the extractor, so they are plain
strings here, as pushed at parse.ts:155-164 and parse.ts:195-204. -/
structure JobSearchResult where
  jobTitle : String
  companyName : String
  location : String
  jobUrl : String
  postedTime : String
  jobType : String
  salaryRange : String
  description : String
deriving Repr, DecidableEq

/-- `SearchResults` (parse.ts:28-33); `currentPage` is never assigned by
the extractor and is omitted. -/
structure SearchResults where
  jobs : List JobSearchResult
  totalResults : Option Nat
  extractedAt : String
deriving Repr, DecidableEq

/-- `extractTextWithSelectors` (parse.ts:103-109) over the list of raw
texts the selectors return: first selector whose cleaned text is
non-empty. -/
def extractTextWithSelectors : List String → String
  | [] => ""
  | t :: ts =>
    let c := cleanText t
    if c = "" then extractTextWithSelectors ts else c

/-- `extractTextWithFallback` (parse.ts:112-115). -/
def extractTextWithFallback (primaryText fallbackText : String) : String :=
  strOr (cleanText primaryText) (cleanText fallbackText)

/-- Card title: `extractTextWithSelectors` over `TITLE_SELECTORS`, then the
span fallback (parse.ts:129-132). -/
def cardJobTitle (c : SearchCard) : String :=
  let t := extractTextWithSelectors c.titleSelTexts
  if t = "" then cleanText c.titleFallbackText else t

/-- Card company: `extractTextWithSelectors` over `COMPANY_SELECTORS`, then
the anchor fallback (parse.ts:135-138). -/
def cardCompanyName (c : SearchCard) : String :=
  let t := extractTextWithSelectors c.companySelTexts
  if t = "" then cleanText c.companyFallbackText else t

/-- The item pushed for a card that passed the essential-info check
(parse.ts:146-164). -/
def cardItem (c : SearchCard) : JobSearchResult where
  jobTitle := cardJobTitle c
  companyName := cardCompanyName c
  location := strOr (cleanText c.locationText) "Not specified"
  jobUrl := normalizeLinkedInUrl c.fullLinkHref
  postedTime := cleanText c.postedTimeText
  jobType := cleanText c.jobTypeText
  salaryRange := cleanText c.salaryText
  description := cleanText c.descriptionText

/-- The primary `forEach` over the cards (parse.ts:125-165): skip a card
whose title or company is empty (`return` at parse.ts:142), otherwise
append its item. -/
def extractCards : List SearchCard → List JobSearchResult
  | [] => []
  | c :: cs =>
    if cardJobTitle c = "" ∨ cardCompanyName c = "" then extractCards cs
    else cardItem c :: extractCards cs

/-- The item pushed for a similar-jobs card (parse.ts:190-204); `jobType`
and `description` are pushed as `''`. -/
def similarItem (c : SimilarCard) : JobSearchResult where
  jobTitle := cleanText c.titleText
  companyName := cleanText c.companyText
  location := strOr (cleanText c.locationText) "Not specified"
  jobUrl := normalizeLinkedInUrl c.fullLinkHref
  postedTime := cleanText c.postedTimeText
  jobType := ""
  salaryRange := cleanText c.salaryText
  description := ""

/-- The similar-jobs fallback `forEach` (parse.ts:181-205), with the same
essential-info skip (parse.ts:188). -/
def extractSimilar : List SimilarCard → List JobSearchResult
  | [] => []
  | c :: cs =>
    if cleanText c.titleText = "" ∨ cleanText c.companyText = "" then
      extractSimilar cs
    else similarItem c :: extractSimilar cs

/-- `extractJobSearchResults` (parse.ts:117-215).  `now` is the
`new Date().toISOString()` value of parse.ts:213.  The similar-jobs pass
runs only when the primary pass produced zero items (parse.ts:177). -/
def extractJobSearchResults (doc : ListingDoc) (now : String) : SearchResults :=
  let jobs := extractCards doc.cards
  let totalResults :=
    if doc.totalResultsText = "" then none
    else extractNumberFromText doc.totalResultsText
  let allJobs := if jobs.length = 0 then extractSimilar doc.similarCards else jobs
  { jobs := allJobs, totalResults := totalResults, extractedAt := now }

/-! ### Detail extraction (parse.ts:230-283) -/

/-- Leftmost (hence longest, being anchored at the end) match of
`replace(/\s*\|\s*LinkedIn$/, '')` (parse.ts:234): strip a trailing
`LinkedIn`, the whitespace before it, one `|`, and the whitespace before
that; with no such suffix the text is unchanged. -/
def stripLinkedInTitleSuffix (s : String) : String :=
  let r := s.data.reverse
  if startsWithL ['n', 'I', 'd', 'e', 'k', 'n', 'i', 'L'] r then
    match (r.drop 8).dropWhile jsWs with
    | '|' :: r2 => String.mk ((r2.dropWhile jsWs).reverse)
    | _ => s
  else s

/-- `content.split(' hiring ')[0]` (parse.ts:239): the characters before
the first occurrence of the separator (the whole string if absent). -/
def takeUntilHiring : List Char → List Char
  | [] => []
  | c :: cs =>
    if startsWithL [' ', 'h', 'i', 'r', 'i', 'n', 'g', ' '] (c :: cs) then []
    else c :: takeUntilHiring cs

/-- `[\d:]` of the posted-time regex (parse.ts:264). -/
def isDigitOrColon (c : Char) : Bool := isDigitChar c || c = ':'

/-- Match of `/Posted\s+[\d:]+\s+[AP]M/` anchored at the head of `l`
(the three inner character classes are pairwise disjoint, so the greedy
quantifiers never backtrack); returns the matched characters. -/
def matchPostedAt (l : List Char) : Option (List Char) :=
  if startsWithL ['P', 'o', 's', 't', 'e', 'd'] l then
    let r0 := l.drop 6
    let w1 := r0.takeWhile jsWs
    if w1 = [] then none
    else
      let r1 := r0.drop w1.length
      let d := r1.takeWhile isDigitOrColon
      if d = [] then none
      else
        let r2 := r1.drop d.length
        let w2 := r2.takeWhile jsWs
        if w2 = [] then none
        else
          match r2.drop w2.length with
          | c :: 'M' :: _ =>
            if c = 'A' || c = 'P' then
              some (['P', 'o', 's', 't', 'e', 'd'] ++ w1 ++ d ++ w2 ++ [c, 'M'])
            else none
          | _ => none
  else none

/-- Leftmost match of the posted-time regex in the text, as `match(..)?.[0]`
(parse.ts:264). -/
def findPostedMatch : List Char → Option (List Char)
  | [] => none
  | c :: cs =>
    match matchPostedAt (c :: cs) with
    | some m => some m
    | none => findPostedMatch cs

/-- A parsed detail document: each call site of `extractJobDetail`
(parse.ts:230-283) becomes the raw string its query returns.  `Option`
fields model `attr(..)` / optional-chaining results that may be
`undefined`; plain string fields model `.text()` results. -/
structure DetailDoc where
  topcardTitleText : String
  h1JobTitleText : String
  titleTagText : String
  orgNameLinkText : String
  subNavOptionalUrlText : String
  ogTitleContent : Option String
  topcardFlavorBulletText : String
  subNavMetaTextText : String
  compensationSalaryText : String
  salaryFallbackText : String
  descCandidates : List (Option String)
  postedTimeAgoText : String
  metaDescriptionContent : Option String
  numApplicantsText : String
  canonicalHref : Option String
  ogUrlContent : Option String
  companyIdContent : Option String
  titleIdContent : Option String
deriving Repr, DecidableEq

/-- `JobData` (parse.ts:3-15).  Fields typed `string | undefined` in the
source and assigned possibly-undefined expressions are `Option String`;
fields always assigned a string are `String`. -/
structure JobData where
  jobTitle : String
  companyName : String
  location : String
  salaryRange : String
  jobDescription : String
  postedTime : Option String
  applicants : String
  jobUrl : Option String
  companyId : Option String
  titleId : Option String
  extractedAt : String
deriving Repr, DecidableEq

/-- Title fallback chain (parse.ts:232-234). -/
def detailTitle (d : DetailDoc) : String :=
  strOr (cleanText d.topcardTitleText)
    (strOr (cleanText d.h1JobTitleText)
      (cleanText (stripLinkedInTitleSuffix d.titleTagText)))

/-- The Open-Graph company fallback
`attr('content')?.split(' hiring ')[0]?.trim() || ''` (parse.ts:239-240). -/
def ogCompany (d : DetailDoc) : String :=
  match d.ogTitleContent with
  | none => ""
  | some s => jsTrim (String.mk (takeUntilHiring s.data))

/-- Company fallback chain (parse.ts:237-240). -/
def detailCompany (d : DetailDoc) : String :=
  strOr (cleanText d.orgNameLinkText)
    (strOr (cleanText d.subNavOptionalUrlText) (ogCompany d))

/-- Location chain (parse.ts:248). -/
def detailLocation (d : DetailDoc) : String :=
  extractTextWithFallback d.topcardFlavorBulletText d.subNavMetaTextText

/-- Salary chain (parse.ts:249). -/
def detailSalary (d : DetailDoc) : String :=
  extractTextWithFallback d.compensationSalaryText d.salaryFallbackText

/-- Description loop (parse.ts:252-260): for the first selector whose
element exists, take `element.html()?.trim() || ''` and break; `""` if no
selector matches. -/
def firstDescHtml : List (Option String) → String
  | [] => ""
  | none :: rest => firstDescHtml rest
  | some h :: _ => jsTrim h

/-- Posted time (parse.ts:263-264): cleaned selector text, else the regex
match inside the meta description content, else `undefined`. -/
def detailPostedTime (d : DetailDoc) : Option String :=
  let t := cleanText d.postedTimeAgoText
  if t = "" then
    match d.metaDescriptionContent with
    | none => none
    | some m => (findPostedMatch m.data).map String.mk
  else some t

/-- `extractJobDetail` (parse.ts:230-283).  `now` is the
`new Date().toISOString()` value of parse.ts:281. -/
def extractJobDetail (d : DetailDoc) (now : String) : Option JobData :=
  let jobTitle := detailTitle d
  let companyName := detailCompany d
  if jobTitle = "" ∧ companyName = "" then none
  else some
    { jobTitle := strOr jobTitle "Unknown Title"
      companyName := strOr companyName "Unknown Company"
      location := strOr (detailLocation d) "Unknown Location"
      salaryRange := detailSalary d
      jobDescription := firstDescHtml d.descCandidates
      postedTime := detailPostedTime d
      applicants := cleanText d.numApplicantsText
      jobUrl := jsOrOpt d.canonicalHref d.ogUrlContent
      companyId := d.companyIdContent
      titleId := d.titleIdContent
      extractedAt := now }

/-! ### Fetch cache, rate limiter and request coordinator (scrape.ts)

The module-level mutable state of scrape.ts (`cache`, `pendingRequests`,
`lastRequestTime`) is threaded explicitly.  A JavaScript `Map` is an
association list in key-insertion order: `set` overwrites an existing key
in place, otherwise appends. -/

/-- A cache value `{ html, timestamp }` (scrape.ts:7). -/
structure CacheEntry where
  html : String
  timestamp : Nat
deriving Repr, DecidableEq

/-- The `Map<string, {html, timestamp}>` of scrape.ts:7, in insertion
(iteration) order. -/
abbrev Cache := List (String × CacheEntry)

/-- `CACHE_DURATION` (scrape.ts:8): ten minutes in milliseconds. -/
def CACHE_DURATION : Nat := 10 * 60 * 1000

/-- `MAX_CACHE_SIZE` (scrape.ts:9). -/
def MAX_CACHE_SIZE : Nat := 50

/-- `MIN_REQUEST_INTERVAL` (scrape.ts:13): 1.5 seconds in milliseconds. -/
def MIN_REQUEST_INTERVAL : Nat := 1500

/-- `Map.prototype.get`. -/
def mapGet (m : Cache) (k : String) : Option CacheEntry :=
  (m.find? (fun p => p.1 == k)).map Prod.snd

/-- `Map.prototype.set`: overwrite in place, else append. -/
def mapSet (m : Cache) (k : String) (v : CacheEntry) : Cache :=
  if m.any (fun p => p.1 == k) then
    m.map (fun p => if p.1 = k then (k, v) else p)
  else m ++ [(k, v)]

/-- `Map.prototype.delete`. -/
def mapDelete (m : Cache) (k : String) : Cache :=
  m.filter (fun p => p.1 != k)

/-- `getCachedResult` (scrape.ts:64-71): the cached markup when
`now - timestamp < CACHE_DURATION`, else `null`; a pure read — no entry is
deleted.  (With `Nat` subtraction an entry stamped in the future reads as
age `0`, matching the negative age JavaScript would compute: fresh.) -/
def getCachedResult (cache : Cache) (url : String) (now : Nat) : Option String :=
  match mapGet cache url with
  | some e => if now - e.timestamp < CACHE_DURATION then some e.html else none
  | none => none

/-- Ordered insertion after every strictly smaller timestamp: inserting the
original-order entries right to left through this yields exactly a stable
ascending-timestamp sort, which is what `entries.sort((a, b) =>
a[1].timestamp - b[1].timestamp)` (scrape.ts:79) performs — ECMAScript sort
is required to be stable. -/
def insertByTimestamp (e : String × CacheEntry) : Cache → Cache
  | [] => [e]
  | x :: xs =>
    if x.2.timestamp < e.2.timestamp then x :: insertByTimestamp e xs
    else e :: x :: xs

/-- Stable sort of the cache entries by ascending timestamp
(scrape.ts:78-79). -/
def sortByTimestamp : Cache → Cache
  | [] => []
  | e :: es => insertByTimestamp e (sortByTimestamp es)

/-- The leftmost entry (in map iteration order) attaining the minimal
timestamp — the element `entries[0]` of the stable sort picks. -/
def firstOldest : Cache → Option (String × CacheEntry)
  | [] => none
  | e :: es =>
    match firstOldest es with
    | none => some e
    | some m => if e.2.timestamp ≤ m.2.timestamp then some e else some m

/-- `setCachedResult` (scrape.ts:73-84): insert/overwrite with the current
timestamp; if the size then exceeds `MAX_CACHE_SIZE`, delete the key of the
first entry of the timestamp-sorted entry array. -/
def setCachedResult (cache : Cache) (url html : String) (now : Nat) : Cache :=
  let c1 := mapSet cache url ⟨html, now⟩
  if MAX_CACHE_SIZE < c1.length then
    match sortByTimestamp c1 with
    | [] => c1
    | oldest :: _ => mapDelete c1 oldest.1
  else c1

/-- A sequence of `setCachedResult` calls `(url, html, now)` applied in
order. -/
def applyPuts : Cache → List (String × String × Nat) → Cache
  | c, [] => c
  | c, (u, h, t) :: rest => applyPuts (setCachedResult c u h t) rest

/-- Result of one `waitForRateLimit` call (scrape.ts:50-61) under the
idealized timer: `release` is the instant the call returns
(`now + waitTime` after a wait, `now` otherwise) and `newLast` is the value
`lastRequestTime = Date.now()` records at that instant (scrape.ts:60). -/
structure RLResult where
  release : Nat
  newLast : Nat
deriving Repr, DecidableEq

/-- `waitForRateLimit` (scrape.ts:50-61) as a function of the entry time
`now` and the stored `lastRequestTime`. -/
def waitForRateLimit (now lastRequestTime : Nat) : RLResult :=
  let timeSince := now - lastRequestTime
  if timeSince < MIN_REQUEST_INTERVAL then
    let waitTime := MIN_REQUEST_INTERVAL - timeSince
    { release := now + waitTime, newLast := now + waitTime }
  else { release := now, newLast := now }

/-- Coordinator state: the cache, the `pendingRequests` map (scrape.ts:16)
holding one in-flight fetch identifier per URL, and a counter allocating
fresh fetch identifiers (two `scrape` calls share a promise exactly when
they hold the same identifier). -/
structure PipelineState where
  cache : Cache
  pending : List (String × Nat)
  nextFetchId : Nat
deriving Repr, DecidableEq

/-- What the synchronous prefix of `scrape` (scrape.ts:141-174) hands the
caller: the cached markup (scrape.ts:143-146), attachment to an existing
pending fetch (scrape.ts:149-153), or a newly started fetch
(scrape.ts:156-173). -/
inductive CallTicket where
  | cachedHtml (html : String)
  | attached (fid : Nat)
  | started (fid : Nat)
deriving Repr, DecidableEq

/-- `pendingRequests.get(url)`. -/
def pendingGet (p : List (String × Nat)) (url : String) : Option Nat :=
  (p.find? (fun q => q.1 == url)).map Prod.snd

/-- The synchronous prefix of `scrape` (scrape.ts:141-174).  JavaScript is
single threaded and this prefix contains no `await`, so it is one atomic
step: cache probe, pending probe, then registration of a fresh pending
fetch.  Only a `started` ticket performs a navigation and consumes the rate
limiter (inside the async continuation, scrape.ts:156-168). -/
def scrapeSync (s : PipelineState) (url : String) (now : Nat) :
    CallTicket × PipelineState :=
  match getCachedResult s.cache url now with
  | some html => (.cachedHtml html, s)
  | none =>
    match pendingGet s.pending url with
    | some fid => (.attached fid, s)
    | none =>
      (.started s.nextFetchId,
       { s with
          pending := s.pending ++ [(url, s.nextFetchId)],
          nextFetchId := s.nextFetchId + 1 })

/-- Underlying navigations a ticket performs: `started` runs
`scrapeInternal` (one `page.goto`, scrape.ts:195); the other tickets run
none. -/
def navigations : CallTicket → Nat
  | .started _ => 1
  | _ => 0

/-- Does this ticket pass through `waitForRateLimit` (scrape.ts:159)? -/
def consumesRateLimit : CallTicket → Bool
  | .started _ => true
  | _ => false

/-- Eventual outcome of an underlying fetch. -/
inductive FetchOutcome where
  | success (html : String)
  | failure (msg : String)
deriving Repr, DecidableEq

/-- The outcome a caller holding ticket `t` eventually observes, given the
resolution `resolve` of each fetch identifier (a promise resolves once, so
every holder of the same identifier observes the same outcome). -/
def ticketOutcome (t : CallTicket) (resolve : Nat → FetchOutcome) : FetchOutcome :=
  match t with
  | .cachedHtml h => .success h
  | .attached k => resolve k
  | .started k => resolve k

/-- Settlement of the fetch for `url` (the atomic tail of
scrape.ts:156-168 plus scrape.ts:225): on success `setCachedResult`, and in
either case `pendingRequests.delete(url)` in the `finally`. -/
def completeFetch (s : PipelineState) (url : String) (o : FetchOutcome)
    (now : Nat) : PipelineState :=
  { s with
     cache :=
       match o with
       | .success html => setCachedResult s.cache url html now
       | .failure _ => s.cache
     pending := s.pending.filter (fun q => q.1 != url) }

/-! ### Lemmas about the sanitizer -/

/-- `String.mk` projection. -/
theorem data_mk (l : List Char) : (String.mk l).data = l := rfl

/-- The head, if any, is not whitespace. -/
def headOkWs (l : List Char) : Prop :=
  ∀ c, l.head? = some c → jsWs c = false

/-- The last character, if any, is not whitespace. -/
def lastOkWs (l : List Char) : Prop :=
  ∀ c, l.getLast? = some c → jsWs c = false

theorem removeCommentsAux_id (fuel : Nat) (l : List Char)
    (h : ∀ c ∈ l, c ≠ '<') : removeCommentsAux fuel l = l := by
  induction fuel generalizing l with
  | zero => rfl
  | succ n ih =>
    cases l with
    | nil => rfl
    | cons c cs =>
      have hc : ('<' = c) = False := by
        simpa [eq_comm] using h c (List.mem_cons_self c cs)
      simp [removeCommentsAux, startsWithL, commentOpen, hc,
        ih cs (fun a ha => h a (List.mem_cons_of_mem c ha))]

theorem removeComments_id (l : List Char) (h : ∀ c ∈ l, c ≠ '<') :
    removeComments l = l :=
  removeCommentsAux_id _ l h

theorem collapseWsAux_cons_ws (b : Bool) (a : Char) (as : List Char)
    (hw : jsWs a = true) :
    collapseWsAux b (a :: as)
      = if b then collapseWsAux true as else ' ' :: collapseWsAux true as := by
  cases b <;> simp [collapseWsAux, hw]

theorem collapseWsAux_cons_not_ws (b : Bool) (a : Char) (as : List Char)
    (hw : jsWs a = false) :
    collapseWsAux b (a :: as) = a :: collapseWsAux false as := by
  cases b <;> simp [collapseWsAux, hw]

theorem mem_collapseWsAux (l : List Char) :
    ∀ (b : Bool) (c : Char), c ∈ collapseWsAux b l → c ∈ l ∨ c = ' ' := by
  induction l with
  | nil => intro b c h; simp [collapseWsAux] at h
  | cons a as ih =>
    intro b c h
    cases hw : jsWs a with
    | true =>
      rw [collapseWsAux_cons_ws b a as hw] at h
      cases b with
      | true =>
        rcases ih true c h with h' | h'
        · exact Or.inl (List.mem_cons_of_mem a h')
        · exact Or.inr h'
      | false =>
        rcases List.mem_cons.mp h with h' | h'
        · exact Or.inr h'
        · rcases ih true c h' with h'' | h''
          · exact Or.inl (List.mem_cons_of_mem a h'')
          · exact Or.inr h''
    | false =>
      rw [collapseWsAux_cons_not_ws b a as hw] at h
      rcases List.mem_cons.mp h with h' | h'
      · exact Or.inl (by simp [h'])
      · rcases ih false c h' with h'' | h''
        · exact Or.inl (List.mem_cons_of_mem a h'')
        · exact Or.inr h''

/-- No whitespace character other than a single `' '` between two
non-whitespace neighbours: the canonical form `replace(/\s+/g, ' ')`
produces. -/
def wsCanon : List Char → Bool
  | [] => true
  | [c] => !jsWs c || c == ' '
  | c :: d :: rest => (!jsWs c || (c == ' ' && !jsWs d)) && wsCanon (d :: rest)

theorem collapseWsAux_true_headOk (l : List Char) :
    headOkWs (collapseWsAux true l) := by
  induction l with
  | nil => intro c h; simp [collapseWsAux] at h
  | cons a as ih =>
    cases hw : jsWs a with
    | true => simpa only [collapseWsAux_cons_ws true a as hw, if_true] using ih
    | false =>
      intro c h
      rw [collapseWsAux_cons_not_ws true a as hw] at h
      simp only [List.head?_cons, Option.some.injEq] at h
      rw [← h]
      exact hw

theorem wsCanon_cons_of_not_ws (c : Char) (m : List Char) (hc : jsWs c = false)
    (hm : wsCanon m = true) : wsCanon (c :: m) = true := by
  cases m <;> simp [wsCanon, hc, hm]

theorem wsCanon_space_cons (m : List Char) (hm : wsCanon m = true)
    (hh : headOkWs m) : wsCanon (' ' :: m) = true := by
  cases m with
  | nil => decide
  | cons d rest =>
    have hd : jsWs d = false := hh d rfl
    simp [wsCanon, hd, hm]

theorem wsCanon_collapseWsAux (l : List Char) :
    ∀ b, wsCanon (collapseWsAux b l) = true := by
  induction l with
  | nil => intro b; rfl
  | cons a as ih =>
    intro b
    cases hw : jsWs a with
    | true =>
      rw [collapseWsAux_cons_ws b a as hw]
      cases b with
      | true => exact ih true
      | false =>
        simp only [if_false, Bool.false_eq_true]
        exact wsCanon_space_cons _ (ih true) (collapseWsAux_true_headOk as)
    | false =>
      rw [collapseWsAux_cons_not_ws b a as hw]
      exact wsCanon_cons_of_not_ws a _ hw (ih false)

theorem wsCanon_tail (c : Char) (m : List Char) (h : wsCanon (c :: m) = true) :
    wsCanon m = true := by
  cases m with
  | nil => rfl
  | cons d rest =>
    simp only [wsCanon, Bool.and_eq_true] at h
    exact h.2

theorem collapseWs_eq_self_of_wsCanon (m : List Char) (h : wsCanon m = true) :
    collapseWsAux false m = m := by
  induction m with
  | nil => rfl
  | cons c cs ih =>
    cases cs with
    | nil =>
      cases hw : jsWs c with
      | true =>
        have hc : c = ' ' := by
          simp only [wsCanon, hw, Bool.not_true, Bool.false_or, beq_iff_eq] at h
          exact h
        subst hc
        simp [collapseWsAux]
      | false => simp [collapseWsAux, hw]
    | cons d rest =>
      have h2 : wsCanon (d :: rest) = true := wsCanon_tail c _ h
      cases hw : jsWs c with
      | true =>
        have hcd : c = ' ' ∧ jsWs d = false := by
          simp only [wsCanon, hw, Bool.not_true, Bool.false_or, Bool.and_eq_true,
            beq_iff_eq, Bool.not_eq_true'] at h
          exact ⟨h.1.1, h.1.2⟩
        have hd : jsWs d = false := hcd.2
        have e1 : collapseWsAux false (d :: rest) = d :: collapseWsAux false rest :=
          collapseWsAux_cons_not_ws false d rest hd
        have e2 : collapseWsAux false rest = rest := by
          have h3 := ih h2
          rw [e1] at h3
          simpa using h3
        rw [collapseWsAux_cons_ws false c (d :: rest) hw]
        simp only [if_false, Bool.false_eq_true]
        rw [collapseWsAux_cons_not_ws true d rest hd, e2, hcd.1]
      | false =>
        rw [collapseWsAux_cons_not_ws false c (d :: rest) hw, ih h2]

theorem collapseWs_idem (l : List Char) :
    collapseWs (collapseWs l) = collapseWs l :=
  collapseWs_eq_self_of_wsCanon _ (wsCanon_collapseWsAux l false)

theorem headOkWs_dropWhile (l : List Char) : headOkWs (l.dropWhile jsWs) := by
  induction l with
  | nil => intro c hc; simp [List.dropWhile] at hc
  | cons a as ih =>
    intro c hc
    rw [List.dropWhile_cons] at hc
    cases hw : jsWs a with
    | true => rw [if_pos hw] at hc; exact ih c hc
    | false =>
      rw [if_neg (by simp [hw])] at hc
      simp only [List.head?_cons, Option.some.injEq] at hc
      rw [← hc]; exact hw

theorem dropWhile_eq_self_of_headOk (l : List Char) (h : headOkWs l) :
    l.dropWhile jsWs = l := by
  cases l with
  | nil => rfl
  | cons a as => rw [List.dropWhile_cons, if_neg (by simp [h a rfl])]

theorem trimL_eq_self (l : List Char) (h1 : headOkWs l) (h2 : lastOkWs l) :
    trimL l = l := by
  have h2' : headOkWs l.reverse := fun c hc =>
    h2 c (by rwa [List.head?_reverse] at hc)
  unfold trimL
  rw [dropWhile_eq_self_of_headOk l h1, dropWhile_eq_self_of_headOk l.reverse h2',
    List.reverse_reverse]

theorem trimL_lastOk (w : List Char) : lastOkWs (trimL w) := by
  intro c hc
  unfold trimL at hc
  rw [List.getLast?_reverse] at hc
  exact headOkWs_dropWhile _ c hc

theorem trimL_headOk (w : List Char) : headOkWs (trimL w) := by
  intro c hc
  unfold trimL at hc
  rw [List.head?_reverse] at hc
  set a := w.dropWhile jsWs with ha
  set b := a.reverse.dropWhile jsWs with hb
  obtain ⟨t, ht⟩ : b <:+ a.reverse := by rw [hb]; exact List.dropWhile_suffix jsWs
  cases hbe : b with
  | nil => rw [hbe] at hc; simp at hc
  | cons x xs =>
    have hbn : b ≠ [] := by rw [hbe]; simp
    have e1 : b.getLast? = a.reverse.getLast? := by
      rw [← ht, List.getLast?_append_of_ne_nil t hbn]
    rw [e1, List.getLast?_reverse] at hc
    exact headOkWs_dropWhile w c hc

theorem collapseWs_headOk (l : List Char) (h : headOkWs l) :
    headOkWs (collapseWs l) := by
  cases l with
  | nil => intro c hc; simp [collapseWs, collapseWsAux] at hc
  | cons a as =>
    have ha : jsWs a = false := h a rfl
    intro c hc
    rw [collapseWs, collapseWsAux_cons_not_ws false a as ha] at hc
    simp only [List.head?_cons, Option.some.injEq] at hc
    rw [← hc]; exact ha

theorem collapseWsAux_append_last (l : List Char) (c : Char)
    (hc : jsWs c = false) :
    ∀ b, ∃ m, collapseWsAux b (l ++ [c]) = m ++ [c] := by
  induction l with
  | nil =>
    intro b
    refine ⟨[], ?_⟩
    rw [List.nil_append, collapseWsAux_cons_not_ws b c [] hc]
    rfl
  | cons a as ih =>
    intro b
    cases hw : jsWs a with
    | true =>
      cases b with
      | true =>
        obtain ⟨m, hm⟩ := ih true
        refine ⟨m, ?_⟩
        rw [List.cons_append, collapseWsAux_cons_ws true a (as ++ [c]) hw, if_pos rfl, hm]
      | false =>
        obtain ⟨m, hm⟩ := ih true
        refine ⟨' ' :: m, ?_⟩
        rw [List.cons_append, collapseWsAux_cons_ws false a (as ++ [c]) hw]
        simp only [if_false, Bool.false_eq_true, hm, List.cons_append]
    | false =>
      obtain ⟨m, hm⟩ := ih false
      refine ⟨a :: m, ?_⟩
      rw [List.cons_append, collapseWsAux_cons_not_ws b a (as ++ [c]) hw, hm,
        List.cons_append]

theorem collapseWs_lastOk (l : List Char) (h : lastOkWs l) :
    lastOkWs (collapseWs l) := by
  rcases he : l.getLast? with _ | x
  · have hl : l = [] := List.getLast?_eq_none_iff.mp he
    subst hl
    intro c hc; simp [collapseWs, collapseWsAux] at hc
  · have hx : jsWs x = false := h x he
    have hne : l ≠ [] := by
      rintro rfl; simp at he
    have hgl : l.getLast hne = x := by
      have := List.getLast?_eq_getLast l hne
      rw [he] at this
      injection this with h'
      exact h'.symm
    obtain ⟨m, hm⟩ := collapseWsAux_append_last l.dropLast x hx false
    intro c hc
    rw [collapseWs, ← List.dropLast_append_getLast hne, hgl, hm,
      List.getLast?_concat] at hc
    injection hc with h'
    rw [← h']; exact hx

theorem mem_trimL (m : List Char) (c : Char) (h : c ∈ trimL m) : c ∈ m := by
  unfold trimL at h
  rw [List.mem_reverse] at h
  have h2 := (List.dropWhile_suffix jsWs).subset h
  rw [List.mem_reverse] at h2
  exact (List.dropWhile_suffix jsWs).subset h2

theorem cleanTextL_allowed (l : List Char) (c : Char) (h : c ∈ cleanTextL l) :
    allowedChar c = true := by
  unfold cleanTextL at h
  exact (List.mem_filter.mp (mem_trimL _ _ h)).2

theorem cleanTextL_headOk (l : List Char) : headOkWs (cleanTextL l) :=
  trimL_headOk _

theorem cleanTextL_lastOk (l : List Char) : lastOkWs (cleanTextL l) :=
  trimL_lastOk _

/-- A second pass of the sanitizer body only collapses whitespace runs: the
comment, asterisk and allow-list stages are identities on sanitized text
(`<` and `*` are not allowed characters), and trimming is an identity after
whitespace collapse of trimmed text. -/
theorem cleanTextL_double (l : List Char) :
    cleanTextL (cleanTextL l) = collapseWs (cleanTextL l) := by
  have hall : ∀ c ∈ cleanTextL l, allowedChar c = true :=
    fun c hc => cleanTextL_allowed l c hc
  have h1 : removeComments (cleanTextL l) = cleanTextL l := by
    refine removeComments_id _ (fun c hc => ?_)
    intro he
    have := hall c hc
    rw [he] at this
    exact absurd this (by decide)
  have h2 : (cleanTextL l).filter (fun c => c != '*') = cleanTextL l := by
    refine List.filter_eq_self.mpr (fun a ha => ?_)
    have h := hall a ha
    by_cases hx : a = '*'
    · rw [hx] at h; exact absurd h (by decide)
    · simpa using hx
  have h3 : (collapseWs (cleanTextL l)).filter allowedChar
      = collapseWs (cleanTextL l) := by
    refine List.filter_eq_self.mpr (fun a ha => ?_)
    rcases mem_collapseWsAux _ false a ha with h | h
    · exact hall a h
    · rw [h]; decide
  have h4 : trimL (collapseWs (cleanTextL l)) = collapseWs (cleanTextL l) :=
    trimL_eq_self _ (collapseWs_headOk _ (cleanTextL_headOk l))
      (collapseWs_lastOk _ (cleanTextL_lastOk l))
  conv_lhs => rw [cleanTextL, h1, h2, h3, h4]

theorem cleanText_second_pass (s : String) :
    cleanText (cleanText s) = String.mk (collapseWs (cleanText s).data) := by
  by_cases hs : s = ""
  · subst hs; rfl
  · have hcs : cleanText s = String.mk (cleanTextL s.data) := by
      simp [cleanText, hs]
    rw [hcs]
    by_cases hy : cleanTextL s.data = []
    · rw [hy]; rfl
    · have hne : String.mk (cleanTextL s.data) ≠ "" := by
        intro he
        exact hy (by simpa using congrArg String.data he)
      rw [cleanText, if_neg hne, data_mk]
      exact congrArg String.mk (cleanTextL_double s.data)

/-! ## C2 — sanitizer idempotence (corrected) -/

/-- C2 counterexample: `cleanText` is not idempotent.  On `"a @ b"` the
whitespace-collapse stage runs before the allow-list strip, so deleting the
disallowed `@` between two spaces leaves `"a  b"`, which a second
application collapses further to `"a b"`. -/
theorem cleanText_not_idempotent_cex :
    cleanText (cleanText "a @ b") ≠ cleanText "a @ b" := by decide

/-- C2 (amended): a second application of `cleanText` coincides with
collapsing whitespace runs in the first application's output — the only
residual work, arising when the allow-list strip deletes a character
between two whitespace characters — and from the second application on the
function is idempotent: `cleanText ∘ cleanText ∘ cleanText =
cleanText ∘ cleanText`. -/
theorem cleanText_double_collapse (s : String) :
    cleanText (cleanText s) = String.mk (collapseWs (cleanText s).data) ∧
    cleanText (cleanText (cleanText s)) = cleanText (cleanText s) := by
  refine ⟨cleanText_second_pass s, ?_⟩
  rw [cleanText_second_pass (cleanText s), cleanText_second_pass s, data_mk]
  exact congrArg String.mk (collapseWs_idem _)

/-! ## C9 — URL normalization (confirmed) -/

/-- C9: `normalizeLinkedInUrl` maps the empty string to the empty string,
prepends the fixed origin `https://www.linkedin.com` to a relative URL
(one starting with `/`), and passes any other non-empty URL through
unchanged. -/
theorem normalize_url_cases (u : String) :
    (u = "" → normalizeLinkedInUrl u = "") ∧
    (∀ cs, u.data = '/' :: cs →
      normalizeLinkedInUrl u = "https://www.linkedin.com" ++ u) ∧
    (∀ c cs, u.data = c :: cs → c ≠ '/' → normalizeLinkedInUrl u = u) := by
  refine ⟨fun h => ?_, fun cs h => ?_, fun c cs h hc => ?_⟩
  · rw [h]; rfl
  · have hne : u ≠ "" := by
      intro he
      rw [he, show ("" : String).data = [] from rfl] at h
      exact List.noConfusion h
    rw [normalizeLinkedInUrl, if_neg hne, h]
    simp
  · have hne : u ≠ "" := by
      intro he
      rw [he, show ("" : String).data = [] from rfl] at h
      exact List.noConfusion h
    rw [normalizeLinkedInUrl, if_neg hne, h]
    simp [hc]

/-- C9 witness: the relative URL of the spec's worked example. -/
theorem normalize_url_cases_witness :
    normalizeLinkedInUrl "/jobs/view/123"
      = "https://www.linkedin.com" ++ "/jobs/view/123" :=
  (normalize_url_cases "/jobs/view/123").2.1 "jobs/view/123".data (by decide)

/-! ## C4 — rate limiter spacing (confirmed) -/

/-- C4: under the idealized timer, a `waitForRateLimit` call records its
release instant as the new `lastRequestTime` (so a sequentially following
call computes its delay from the first call's release, not from a stale
value), and a second, sequential call entering within `MIN_REQUEST_INTERVAL`
of the first call's release is released exactly `MIN_REQUEST_INTERVAL`
after it — never earlier. -/
theorem rate_limiter_exact_spacing (lastT t1 t2 : Nat)
    (h1 : (waitForRateLimit t1 lastT).release ≤ t2)
    (h2 : t2 - (waitForRateLimit t1 lastT).release < MIN_REQUEST_INTERVAL) :
    (waitForRateLimit t1 lastT).newLast = (waitForRateLimit t1 lastT).release ∧
    (waitForRateLimit t2 (waitForRateLimit t1 lastT).newLast).release
      = (waitForRateLimit t1 lastT).release + MIN_REQUEST_INTERVAL ∧
    ¬ (waitForRateLimit t2 (waitForRateLimit t1 lastT).newLast).release
        < (waitForRateLimit t1 lastT).release + MIN_REQUEST_INTERVAL := by
  have hnl : ∀ a b : Nat,
      (waitForRateLimit a b).newLast = (waitForRateLimit a b).release := by
    intro a b
    simp only [waitForRateLimit]
    split <;> rfl
  have hrel : ∀ a b : Nat, b ≤ a → a - b < MIN_REQUEST_INTERVAL →
      (waitForRateLimit a b).release = b + MIN_REQUEST_INTERVAL := by
    intro a b hab h
    simp only [waitForRateLimit, MIN_REQUEST_INTERVAL] at *
    rw [if_pos h]
    show a + (1500 - (a - b)) = b + 1500
    omega
  refine ⟨hnl t1 lastT, ?_, ?_⟩
  · rw [hnl t1 lastT]
    exact hrel t2 _ h1 h2
  · rw [hnl t1 lastT, hrel t2 _ h1 h2]
    omega

/-- C4 witness: starting from `lastRequestTime = 0`, a call at time `0` is
released at `1500`, and a second call at time `2000` is released at exactly
`3000`. -/
theorem rate_limiter_exact_spacing_witness :
    (waitForRateLimit 2000 (waitForRateLimit 0 0).newLast).release
      = (waitForRateLimit 0 0).release + MIN_REQUEST_INTERVAL :=
  (rate_limiter_exact_spacing 0 0 2000 (by decide) (by decide)).2.1

/-! ### Lemmas about the count regex -/

theorem findFirstNumber_eq_none_iff (l : List Char) :
    findFirstNumber l = none ↔ ∀ c ∈ l, isDigitChar c = false := by
  induction l with
  | nil => simp [findFirstNumber]
  | cons a as ih =>
    cases hd : isDigitChar a with
    | true =>
      simp only [findFirstNumber]
      rw [if_pos hd]
      constructor
      · intro h; exact absurd h (by simp)
      · intro h
        exact absurd (h a (List.mem_cons_self a as)) (by simp [hd])
    | false =>
      simp only [findFirstNumber]
      rw [if_neg (by simp [hd])]
      rw [ih]
      constructor
      · intro h c hc
        rcases List.mem_cons.mp hc with h' | h'
        · rw [h']; exact hd
        · exact h c h'
      · intro h c hc
        exact h c (List.mem_cons_of_mem a hc)

theorem findFirstNumber_append_at (pre : List Char) (c : Char)
    (post : List Char) (hp : ∀ a ∈ pre, isDigitChar a = false)
    (hc : isDigitChar c = true) :
    findFirstNumber (pre ++ c :: post) = some (groupedDigitsAt (c :: post)) := by
  induction pre with
  | nil =>
    simp only [List.nil_append, findFirstNumber]
    rw [if_pos hc]
  | cons a as ih =>
    have ha : isDigitChar a = false := hp a (List.mem_cons_self a as)
    simp only [List.cons_append, findFirstNumber]
    rw [if_neg (by simp [ha])]
    exact ih (fun x hx => hp x (List.mem_cons_of_mem a hx))

/-! ## C5 — total-result count extraction (confirmed) -/

/-- C5: the count parse takes the digits-with-thousands-separators run
starting at the first digit of the text (the capture group
`\d{1,3}(?:,\d{3})*`), strips the separators and reads the digits as an
integer; it is absent exactly when the text has no digit (in particular
when it is empty); the header text `"32,000+ results"` yields `32000`; and
the listing extractor's `totalResults` is exactly this parse of the header
text. -/
theorem total_results_count_extraction :
    extractNumberFromText "32,000+ results" = some 32000 ∧
    (∀ s : String,
      extractNumberFromText s = none ↔ ∀ c ∈ s.data, isDigitChar c = false) ∧
    (∀ (pre post : List Char) (c : Char),
      (∀ a ∈ pre, isDigitChar a = false) → isDigitChar c = true →
      extractNumberFromText (String.mk (pre ++ c :: post))
        = some (digitsVal
            ((groupedDigitsAt (c :: post)).filter (fun x => x != ',')))) ∧
    (∀ (doc : ListingDoc) (now : String),
      (extractJobSearchResults doc now).totalResults
        = extractNumberFromText doc.totalResultsText) := by
  refine ⟨by decide, fun s => ?_, fun pre post c hp hc => ?_, fun doc now => ?_⟩
  · by_cases hs : s = ""
    · subst hs
      simp [extractNumberFromText, show ("" : String).data = [] from rfl]
    · rw [extractNumberFromText, if_neg hs, Option.map_eq_none']
      exact findFirstNumber_eq_none_iff s.data
  · have hne : String.mk (pre ++ c :: post) ≠ "" := by
      intro he
      have h2 := congrArg String.data he
      rw [data_mk, show ("" : String).data = [] from rfl] at h2
      simp at h2
    rw [extractNumberFromText, if_neg hne, data_mk,
      findFirstNumber_append_at pre c post hp hc, Option.map_some']
  · simp only [extractJobSearchResults]
    by_cases hs : doc.totalResultsText = ""
    · rw [if_pos hs, hs]
      rfl
    · rw [if_neg hs]

/-- C5 witness: the worked example, decomposed at its first digit. -/
theorem total_results_count_extraction_witness :
    extractNumberFromText (String.mk ("Showing ".data ++ '3' :: "2,000+ results".data))
      = some (digitsVal
          ((groupedDigitsAt ('3' :: "2,000+ results".data)).filter
            (fun x => x != ','))) :=
  total_results_count_extraction.2.2.1 "Showing ".data "2,000+ results".data '3'
    (by decide) (by decide)

/-! ### Lemmas about listing extraction -/

/-- A primary card that passes the essential-info check. -/
def isValidCard (c : SearchCard) : Bool :=
  cardJobTitle c != "" && cardCompanyName c != ""

/-- A similar-jobs card that passes the essential-info check. -/
def isValidSimilar (c : SimilarCard) : Bool :=
  cleanText c.titleText != "" && cleanText c.companyText != ""

theorem extractCards_length (cs : List SearchCard) :
    (extractCards cs).length = cs.countP isValidCard := by
  induction cs with
  | nil => rfl
  | cons c rest ih =>
    simp only [extractCards]
    by_cases h : cardJobTitle c = "" ∨ cardCompanyName c = ""
    · have hv : isValidCard c = false := by
        rcases h with h | h <;> simp [isValidCard, h]
      rw [if_pos h, List.countP_cons, hv, ih]
      simp
    · have hv : isValidCard c = true := by
        have h2 := not_or.mp h
        simp [isValidCard, h2.1, h2.2]
      rw [if_neg h, List.length_cons, List.countP_cons, hv, ih]
      simp

theorem extractCards_mem (cs : List SearchCard) (j : JobSearchResult)
    (h : j ∈ extractCards cs) : j.jobTitle ≠ "" ∧ j.companyName ≠ "" := by
  induction cs with
  | nil => simp [extractCards] at h
  | cons c rest ih =>
    simp only [extractCards] at h
    by_cases hv : cardJobTitle c = "" ∨ cardCompanyName c = ""
    · rw [if_pos hv] at h; exact ih h
    · rw [if_neg hv] at h
      rcases List.mem_cons.mp h with h' | h'
      · have h2 := not_or.mp hv
        rw [h']
        exact ⟨h2.1, h2.2⟩
      · exact ih h'

theorem extractSimilar_length (cs : List SimilarCard) :
    (extractSimilar cs).length = cs.countP isValidSimilar := by
  induction cs with
  | nil => rfl
  | cons c rest ih =>
    simp only [extractSimilar]
    by_cases h : cleanText c.titleText = "" ∨ cleanText c.companyText = ""
    · have hv : isValidSimilar c = false := by
        rcases h with h | h <;> simp [isValidSimilar, h]
      rw [if_pos h, List.countP_cons, hv, ih]
      simp
    · have hv : isValidSimilar c = true := by
        have h2 := not_or.mp h
        simp [isValidSimilar, h2.1, h2.2]
      rw [if_neg h, List.length_cons, List.countP_cons, hv, ih]
      simp

theorem extractSimilar_mem (cs : List SimilarCard) (j : JobSearchResult)
    (h : j ∈ extractSimilar cs) : j.jobTitle ≠ "" ∧ j.companyName ≠ "" := by
  induction cs with
  | nil => simp [extractSimilar] at h
  | cons c rest ih =>
    simp only [extractSimilar] at h
    by_cases hv : cleanText c.titleText = "" ∨ cleanText c.companyText = ""
    · rw [if_pos hv] at h; exact ih h
    · rw [if_neg hv] at h
      rcases List.mem_cons.mp h with h' | h'
      · have h2 := not_or.mp hv
        rw [h']
        exact ⟨h2.1, h2.2⟩
      · exact ih h'

/-! ## C3 — listing invariant and item count (corrected) -/

/-- A similar-jobs card with non-empty title and company. -/
def similarCardAcme : SimilarCard where
  titleText := "Engineer"
  companyText := "Acme"
  fullLinkHref := ""
  locationText := ""
  salaryText := ""
  postedTimeText := ""

/-- A primary card with non-empty title and company. -/
def cardBackend : SearchCard where
  titleSelTexts := ["Backend Engineer"]
  titleFallbackText := ""
  companySelTexts := ["Acme Corp"]
  companyFallbackText := ""
  fullLinkHref := "/jobs/view/123"
  locationText := ""
  postedTimeText := ""
  salaryText := ""
  jobTypeText := ""
  descriptionText := ""

/-- C3 counterexample: the result count does not equal the number of valid
cards on documents with a similar-jobs section, under either reading of
"card".  With zero valid primary cards and one valid similar-jobs card the
extractor returns the similar-jobs item (1 ≠ 0 primary-valid cards); with
one of each, the similar-jobs pass is skipped (1 ≠ 2 valid cards in the
document). -/
theorem extractListing_count_cex :
    (extractJobSearchResults ⟨[], [similarCardAcme], ""⟩ "t").jobs.length
        ≠ List.countP isValidCard [] ∧
    (extractJobSearchResults ⟨[cardBackend], [similarCardAcme], ""⟩ "t").jobs.length
        ≠ List.countP isValidCard [cardBackend]
          + List.countP isValidSimilar [similarCardAcme] := by decide

/-- C3 (amended): no extracted item ever has an empty title or company;
and the result has exactly N items, where N counts the primary cards whose
extracted title and company are both non-empty, except that when N = 0 the
count is instead the number of valid similar-jobs cards (the deliberate
fallback pass of parse.ts:177-205). -/
theorem extractListing_invariant_and_count (doc : ListingDoc) (now : String) :
    (∀ j ∈ (extractJobSearchResults doc now).jobs,
      j.jobTitle ≠ "" ∧ j.companyName ≠ "") ∧
    (extractJobSearchResults doc now).jobs.length
      = (if 0 < doc.cards.countP isValidCard then doc.cards.countP isValidCard
         else doc.similarCards.countP isValidSimilar) := by
  have hjobs : (extractJobSearchResults doc now).jobs
      = if (extractCards doc.cards).length = 0 then extractSimilar doc.similarCards
        else extractCards doc.cards := rfl
  constructor
  · intro j hj
    rw [hjobs] at hj
    by_cases hz : (extractCards doc.cards).length = 0
    · rw [if_pos hz] at hj; exact extractSimilar_mem _ j hj
    · rw [if_neg hz] at hj; exact extractCards_mem _ j hj
  · rw [hjobs]
    by_cases hz : (extractCards doc.cards).length = 0
    · have h0 : doc.cards.countP isValidCard = 0 := by
        rw [← extractCards_length]; exact hz
      rw [if_pos hz, extractSimilar_length, h0]
      simp
    · have h0 : 0 < doc.cards.countP isValidCard := by
        rw [← extractCards_length]
        exact Nat.pos_of_ne_zero hz
      rw [if_neg hz, extractCards_length, if_pos h0]

/-- C3 witness: on a one-valid-card document the invariant holds of its
extracted item. -/
theorem extractListing_invariant_and_count_witness :
    (cardItem cardBackend).jobTitle ≠ "" ∧ (cardItem cardBackend).companyName ≠ "" :=
  (extractListing_invariant_and_count ⟨[cardBackend], [], ""⟩ "t").1
    (cardItem cardBackend) (by decide)

/-! ### Lemmas about detail extraction -/

theorem extractJobDetail_eq_none_of (d : DetailDoc) (now : String)
    (h : detailTitle d = "" ∧ detailCompany d = "") :
    extractJobDetail d now = none := by
  simp only [extractJobDetail]
  rw [if_pos h]

theorem extractJobDetail_eq_some_of (d : DetailDoc) (now : String)
    (h : ¬(detailTitle d = "" ∧ detailCompany d = "")) :
    extractJobDetail d now = some
      { jobTitle := strOr (detailTitle d) "Unknown Title"
        companyName := strOr (detailCompany d) "Unknown Company"
        location := strOr (detailLocation d) "Unknown Location"
        salaryRange := detailSalary d
        jobDescription := firstDescHtml d.descCandidates
        postedTime := detailPostedTime d
        applicants := cleanText d.numApplicantsText
        jobUrl := jsOrOpt d.canonicalHref d.ogUrlContent
        companyId := d.companyIdContent
        titleId := d.titleIdContent
        extractedAt := now } := by
  simp only [extractJobDetail]
  rw [if_neg h]

/-! ## C8 — detail extraction absence and title sentinel (confirmed) -/

/-- C8: `extractJobDetail` returns `none` exactly when the whole title
fallback chain and the whole company fallback chain (including the
Open-Graph title source) are empty — the sole absent condition; and when
only a company was found (empty title chain, non-empty company chain) it
returns a record whose title is the sentinel `"Unknown Title"`. -/
theorem extractDetail_absent_and_sentinel (d : DetailDoc) (now : String) :
    (extractJobDetail d now = none ↔ detailTitle d = "" ∧ detailCompany d = "") ∧
    (detailTitle d = "" → detailCompany d ≠ "" →
      ∃ r, extractJobDetail d now = some r ∧ r.jobTitle = "Unknown Title") := by
  by_cases h : detailTitle d = "" ∧ detailCompany d = ""
  · refine ⟨⟨fun _ => h, fun _ => extractJobDetail_eq_none_of d now h⟩, ?_⟩
    intro _ hc
    exact absurd h.2 hc
  · refine ⟨⟨fun hn => ?_, fun hx => absurd hx h⟩, fun ht hc => ?_⟩
    · rw [extractJobDetail_eq_some_of d now h] at hn
      exact absurd hn (by simp)
    · refine ⟨_, extractJobDetail_eq_some_of d now h, ?_⟩
      show strOr (detailTitle d) "Unknown Title" = "Unknown Title"
      rw [strOr, if_pos ht]

/-- The empty detail document: no element text, no meta content. -/
def detailDocEmpty : DetailDoc where
  topcardTitleText := ""
  h1JobTitleText := ""
  titleTagText := ""
  orgNameLinkText := ""
  subNavOptionalUrlText := ""
  ogTitleContent := none
  topcardFlavorBulletText := ""
  subNavMetaTextText := ""
  compensationSalaryText := ""
  salaryFallbackText := ""
  descCandidates := []
  postedTimeAgoText := ""
  metaDescriptionContent := none
  numApplicantsText := ""
  canonicalHref := none
  ogUrlContent := none
  companyIdContent := none
  titleIdContent := none

/-- A detail document whose only populated field is the company element. -/
def detailDocCompanyOnly : DetailDoc :=
  { detailDocEmpty with orgNameLinkText := "Acme Corp" }

/-- C8 witness: the empty document is absent. -/
theorem extractDetail_absent_and_sentinel_witness :
    extractJobDetail detailDocEmpty "t" = none :=
  (extractDetail_absent_and_sentinel detailDocEmpty "t").1.mpr (by decide)

/-! ## C10 — detail location sentinel (confirmed) -/

/-- C10: every record `extractJobDetail` produces has a non-empty
location; when the location selector chain is empty the field is the
sentinel `"Unknown Location"`, otherwise it is the chain's value. -/
theorem extractDetail_location_sentinel (d : DetailDoc) (now : String)
    (r : JobData) (h : extractJobDetail d now = some r) :
    r.location ≠ "" ∧
    (detailLocation d = "" → r.location = "Unknown Location") ∧
    (detailLocation d ≠ "" → r.location = detailLocation d) := by
  by_cases hc : detailTitle d = "" ∧ detailCompany d = ""
  · rw [extractJobDetail_eq_none_of d now hc] at h
    exact absurd h (by simp)
  · rw [extractJobDetail_eq_some_of d now hc] at h
    injection h with h'
    have hl : r.location = strOr (detailLocation d) "Unknown Location" := by
      rw [← h']
    rw [hl, strOr]
    by_cases hd : detailLocation d = ""
    · rw [if_pos hd]
      exact ⟨by decide, fun _ => rfl, fun hx => absurd hd hx⟩
    · rw [if_neg hd]
      exact ⟨hd, fun hx => absurd hx hd, fun _ => rfl⟩

/-- C10 witness: with only a company present and an empty location chain,
the produced record's location is the sentinel. -/
theorem extractDetail_location_sentinel_witness :
    ({ jobTitle := "Unknown Title", companyName := "Acme Corp"
       location := "Unknown Location", salaryRange := "", jobDescription := ""
       postedTime := none, applicants := "", jobUrl := none, companyId := none
       titleId := none, extractedAt := "t" } : JobData).location ≠ "" :=
  (extractDetail_location_sentinel detailDocCompanyOnly "t" _ (by decide)).1

/-! ### Lemmas about the cache map -/

theorem mapGet_cons_pos (p : String × CacheEntry) (ps : Cache) (k : String)
    (h : p.1 = k) : mapGet (p :: ps) k = some p.2 := by
  rw [mapGet, List.find?_cons_of_pos ps (by simp [h])]
  rfl

theorem mapGet_cons_neg (p : String × CacheEntry) (ps : Cache) (k : String)
    (h : ¬p.1 = k) : mapGet (p :: ps) k = mapGet ps k := by
  rw [mapGet, List.find?_cons_of_neg ps (by simp [h])]
  rfl

theorem mapGet_map_overwrite (k : String) (v : CacheEntry) :
    ∀ m : Cache, m.any (fun p => p.1 == k) = true →
      mapGet (m.map (fun p => if p.1 = k then (k, v) else p)) k = some v := by
  intro m
  induction m with
  | nil => intro h; simp at h
  | cons p ps ih =>
    intro h
    simp only [List.map_cons]
    by_cases hp : p.1 = k
    · rw [if_pos hp]
      exact mapGet_cons_pos ⟨k, v⟩ _ k rfl
    · rw [if_neg hp, mapGet_cons_neg _ _ _ hp]
      apply ih
      simp only [List.any_cons] at h
      simpa [hp] using h

theorem mapGet_append_new (k : String) (v : CacheEntry) (m : Cache)
    (h : m.any (fun p => p.1 == k) = false) :
    mapGet (m ++ [(k, v)]) k = some v := by
  rw [mapGet, List.find?_append]
  have hf : m.find? (fun p => p.1 == k) = none := by
    rw [List.find?_eq_none]
    intro x hx
    exact (List.any_eq_false.mp h) x hx
  rw [hf, Option.none_or, List.find?_cons_of_pos _ (by simp)]
  rfl

theorem mapGet_mapSet_self (m : Cache) (k : String) (v : CacheEntry) :
    mapGet (mapSet m k v) k = some v := by
  rw [mapSet]
  cases h : m.any (fun p => p.1 == k) with
  | true =>
    rw [if_pos rfl]
    exact mapGet_map_overwrite k v m h
  | false =>
    rw [if_neg (by simp)]
    exact mapGet_append_new k v m h

theorem mapGet_mapDelete_ne (m : Cache) (kd u : String) (h : kd ≠ u) :
    mapGet (mapDelete m kd) u = mapGet m u := by
  induction m with
  | nil => rfl
  | cons p ps ih =>
    rw [mapDelete, List.filter_cons]
    by_cases hp : p.1 = kd
    · rw [if_neg (by simp [hp]), mapGet_cons_neg p ps u (by rw [hp]; exact h)]
      exact ih
    · rw [if_pos (by simp [hp])]
      by_cases hu : p.1 = u
      · rw [mapGet_cons_pos _ _ _ hu, mapGet_cons_pos _ _ _ hu]
      · rw [mapGet_cons_neg _ _ _ hu, mapGet_cons_neg _ _ _ hu]
        exact ih

theorem mapSet_length (m : Cache) (k : String) (v : CacheEntry) :
    (mapSet m k v).length
      = if m.any (fun p => p.1 == k) then m.length else m.length + 1 := by
  rw [mapSet]
  split
  · rw [List.length_map]
  · simp

theorem mapDelete_length_lt (m : Cache) (k : String)
    (h : ∃ p ∈ m, p.1 = k) : (mapDelete m k).length < m.length := by
  rw [mapDelete]
  refine List.length_filter_lt_length_iff_exists.mpr ?_
  obtain ⟨p, hp, hk⟩ := h
  exact ⟨p, hp, by simp [hk]⟩

theorem mapDelete_length_nodup (m : Cache) (k : String)
    (hnd : (m.map Prod.fst).Nodup) (h : ∃ p ∈ m, p.1 = k) :
    (mapDelete m k).length + 1 = m.length := by
  induction m with
  | nil => simp at h
  | cons p ps ih =>
    rw [List.map_cons, List.nodup_cons] at hnd
    rw [mapDelete, List.filter_cons]
    by_cases hp : p.1 = k
    · rw [if_neg (by simp [hp])]
      have hrest : ps.filter (fun q => q.1 != k) = ps := by
        refine List.filter_eq_self.mpr (fun q hq => ?_)
        have hne : q.1 ≠ p.1 := fun he =>
          hnd.1 (he ▸ List.mem_map_of_mem Prod.fst hq)
        simp [hp ▸ hne]
      rw [hrest, List.length_cons]
    · rw [if_pos (by simp [hp])]
      obtain ⟨q, hq, hk⟩ := h
      rcases List.mem_cons.mp hq with h' | h'
      · exact absurd (h' ▸ hk) hp
      · have hih := ih hnd.2 ⟨q, h', hk⟩
        rw [mapDelete] at hih
        rw [List.length_cons, List.length_cons, hih]

/-! ### Lemmas about the eviction sort -/

theorem firstOldest_cons (e : String × CacheEntry) (es : Cache) :
    firstOldest (e :: es)
      = match firstOldest es with
        | none => some e
        | some m => if e.2.timestamp ≤ m.2.timestamp then some e else some m := rfl

theorem mem_insertByTimestamp (e : String × CacheEntry) (m : Cache) :
    ∀ x, x ∈ insertByTimestamp e m → x = e ∨ x ∈ m := by
  induction m with
  | nil => intro x hx; simpa [insertByTimestamp] using hx
  | cons p ps ih =>
    intro x hx
    rw [insertByTimestamp] at hx
    split at hx
    · rcases List.mem_cons.mp hx with h' | h'
      · exact Or.inr (by simp [h'])
      · rcases ih x h' with h'' | h''
        · exact Or.inl h''
        · exact Or.inr (List.mem_cons_of_mem p h'')
    · rcases List.mem_cons.mp hx with h' | h'
      · exact Or.inl h'
      · exact Or.inr h'

theorem mem_sortByTimestamp (m : Cache) :
    ∀ x, x ∈ sortByTimestamp m → x ∈ m := by
  induction m with
  | nil => intro x hx; simp [sortByTimestamp] at hx
  | cons p ps ih =>
    intro x hx
    rcases mem_insertByTimestamp p (sortByTimestamp ps) x hx with h' | h'
    · simp [h']
    · exact List.mem_cons_of_mem p (ih x h')

theorem sortByTimestamp_length (m : Cache) :
    (sortByTimestamp m).length = m.length := by
  have hins : ∀ (e : String × CacheEntry) (l : Cache),
      (insertByTimestamp e l).length = l.length + 1 := by
    intro e l
    induction l with
    | nil => rfl
    | cons p ps ih =>
      rw [insertByTimestamp]
      split
      · rw [List.length_cons, ih, List.length_cons]
      · rfl
  induction m with
  | nil => rfl
  | cons p ps ih => rw [sortByTimestamp, hins, ih, List.length_cons]

theorem sortByTimestamp_head? (m : Cache) :
    (sortByTimestamp m).head? = firstOldest m := by
  induction m with
  | nil => rfl
  | cons e es ih =>
    rw [sortByTimestamp, firstOldest_cons]
    cases hf : firstOldest es with
    | none =>
      have hnil : sortByTimestamp es = [] := by
        rw [← List.head?_eq_none_iff, ih, hf]
      rw [hnil]
      rfl
    | some x =>
      cases hs : sortByTimestamp es with
      | nil =>
        rw [hs] at ih
        rw [← ih] at hf
        exact absurd hf (by simp)
      | cons y ys =>
        have hxy : y = x := by
          rw [hs] at ih
          simp only [List.head?_cons] at ih
          rw [hf] at ih
          injection ih
        subst hxy
        rw [insertByTimestamp]
        by_cases hlt : y.2.timestamp < e.2.timestamp
        · have h2 : ¬ e.2.timestamp ≤ y.2.timestamp := by omega
          simp [hlt, h2]
        · have h2 : e.2.timestamp ≤ y.2.timestamp := by omega
          simp [hlt, h2]

theorem firstOldest_mem (m : Cache) :
    ∀ x, firstOldest m = some x → x ∈ m := by
  induction m with
  | nil => intro x hx; simp [firstOldest] at hx
  | cons e es ih =>
    intro x hx
    rw [firstOldest_cons] at hx
    cases hf : firstOldest es with
    | none =>
      rw [hf] at hx
      simp only [] at hx
      injection hx with hx
      simp [← hx]
    | some y =>
      rw [hf] at hx
      simp only [] at hx
      split at hx
      · injection hx with hx
        simp [← hx]
      · injection hx with hx
        exact List.mem_cons_of_mem e (ih x (by rw [hf, hx]))

theorem firstOldest_append_single (l : Cache) (x : String × CacheEntry) :
    firstOldest (l ++ [x])
      = match firstOldest l with
        | none => some x
        | some m => if m.2.timestamp ≤ x.2.timestamp then some m else some x := by
  induction l with
  | nil => rfl
  | cons e es ih =>
    rw [List.cons_append, firstOldest_cons, ih, firstOldest_cons]
    cases hf : firstOldest es with
    | none =>
      by_cases h1 : e.2.timestamp ≤ x.2.timestamp <;> simp [h1]
    | some m =>
      by_cases h1 : m.2.timestamp ≤ x.2.timestamp <;>
        by_cases h2 : e.2.timestamp ≤ m.2.timestamp <;>
        by_cases h3 : e.2.timestamp ≤ x.2.timestamp <;>
        simp [h1, h2, h3] <;> omega

theorem firstOldest_isSome (m : Cache) (h : m ≠ []) :
    ∃ x, firstOldest m = some x := by
  cases m with
  | nil => exact absurd rfl h
  | cons e es =>
    rw [firstOldest_cons]
    cases firstOldest es with
    | none => exact ⟨e, rfl⟩
    | some y =>
      by_cases h1 : e.2.timestamp ≤ y.2.timestamp
      · exact ⟨e, by simp [h1]⟩
      · exact ⟨y, by simp [h1]⟩

/-! ### Lemmas about cache insertion and lookup -/

theorem setCachedResult_length_le (c : Cache) (u html : String) (t : Nat)
    (hle : c.length ≤ MAX_CACHE_SIZE) :
    (setCachedResult c u html t).length ≤ MAX_CACHE_SIZE := by
  simp only [setCachedResult]
  by_cases hov : MAX_CACHE_SIZE < (mapSet c u ⟨html, t⟩).length
  · rw [if_pos hov]
    cases hs : sortByTimestamp (mapSet c u ⟨html, t⟩) with
    | nil =>
      have h0 : (mapSet c u ⟨html, t⟩).length = 0 := by
        rw [← sortByTimestamp_length, hs]; rfl
      omega
    | cons o rest =>
      simp only []
      have ho : o ∈ mapSet c u ⟨html, t⟩ :=
        mem_sortByTimestamp _ o (hs ▸ List.mem_cons_self o rest)
      have hdel := mapDelete_length_lt (mapSet c u ⟨html, t⟩) o.1 ⟨o, ho, rfl⟩
      have hlen : (mapSet c u ⟨html, t⟩).length ≤ c.length + 1 := by
        rw [mapSet_length]; split <;> omega
      omega
  · rw [if_neg hov]; omega

theorem mapSet_keys_nodup (c : Cache) (k : String) (v : CacheEntry)
    (h : (c.map Prod.fst).Nodup) : ((mapSet c k v).map Prod.fst).Nodup := by
  rw [mapSet]
  split
  · have he : (c.map (fun p => if p.1 = k then (k, v) else p)).map Prod.fst
        = c.map Prod.fst := by
      rw [List.map_map]
      refine List.map_congr_left (fun p _ => ?_)
      by_cases hp1 : p.1 = k <;> simp [hp1]
    rw [he]; exact h
  · next hany =>
    rw [List.map_append, List.nodup_append]
    refine ⟨h, by simp, ?_⟩
    intro a ha hb
    simp only [List.map_cons, List.map_nil, List.mem_singleton] at hb
    obtain ⟨p, hp, hpa⟩ := List.mem_map.mp ha
    have := List.any_eq_false.mp (Bool.eq_false_iff.mpr hany) p hp
    simp [hpa, hb] at this

theorem mapGet_setCachedResult (c : Cache) (u html : String) (tc : Nat)
    (hle : c.length ≤ MAX_CACHE_SIZE)
    (hts : ∀ p ∈ c, p.2.timestamp ≤ tc) :
    mapGet (setCachedResult c u html tc) u = some ⟨html, tc⟩ := by
  simp only [setCachedResult]
  by_cases hov : MAX_CACHE_SIZE < (mapSet c u ⟨html, tc⟩).length
  · rw [if_pos hov]
    have hany : c.any (fun p => p.1 == u) = false := by
      cases ha : c.any (fun p => p.1 == u) with
      | false => rfl
      | true =>
        have hm := mapSet_length c u ⟨html, tc⟩
        rw [ha, if_pos rfl] at hm
        omega
    have hc1 : mapSet c u ⟨html, tc⟩ = c ++ [(u, ⟨html, tc⟩)] := by
      rw [mapSet, if_neg (by simp [hany])]
    have hcne : c ≠ [] := by
      intro he
      rw [hc1, he] at hov
      simp [MAX_CACHE_SIZE] at hov
    obtain ⟨m, hm⟩ := firstOldest_isSome c hcne
    have hfo : firstOldest (mapSet c u ⟨html, tc⟩) = some m := by
      rw [hc1, firstOldest_append_single, hm]
      simp only []
      rw [if_pos (hts m (firstOldest_mem c m hm))]
    have hmne : m.1 ≠ u := by
      intro he
      have hmem := firstOldest_mem c m hm
      have hnp := List.any_eq_false.mp hany m hmem
      simp [he] at hnp
    cases hsrt : sortByTimestamp (mapSet c u ⟨html, tc⟩) with
    | nil =>
      have hh := sortByTimestamp_head? (mapSet c u ⟨html, tc⟩)
      rw [hsrt, hfo] at hh
      exact absurd hh (by simp)
    | cons o rest =>
      have ho : o = m := by
        have hh := sortByTimestamp_head? (mapSet c u ⟨html, tc⟩)
        rw [hsrt, hfo] at hh
        simpa using hh
      simp only []
      rw [ho, mapGet_mapDelete_ne _ _ _ hmne]
      exact mapGet_mapSet_self c u ⟨html, tc⟩
  · rw [if_neg hov]
    exact mapGet_mapSet_self c u ⟨html, tc⟩

theorem getCachedResult_after_set (c : Cache) (u html : String) (tc t : Nat)
    (hle : c.length ≤ MAX_CACHE_SIZE)
    (hts : ∀ p ∈ c, p.2.timestamp ≤ tc)
    (hfresh : t - tc < CACHE_DURATION) :
    getCachedResult (setCachedResult c u html tc) u t = some html := by
  simp only [getCachedResult, mapGet_setCachedResult c u html tc hle hts]
  rw [if_pos hfresh]

theorem getCachedResult_none_mono (c : Cache) (u : String) (t1 t2 : Nat)
    (h12 : t1 ≤ t2) (h : getCachedResult c u t1 = none) :
    getCachedResult c u t2 = none := by
  rw [getCachedResult] at h ⊢
  cases hm : mapGet c u with
  | none => rfl
  | some e =>
    rw [hm] at h
    simp only [] at h ⊢
    split at h
    · exact absurd h (by simp)
    · next hcond =>
      rw [if_neg (by omega)]

theorem scrapeSync_cache_eq (s : PipelineState) (u : String) (t : Nat) :
    (scrapeSync s u t).2.cache = s.cache := by
  simp only [scrapeSync]
  cases getCachedResult s.cache u t with
  | some h => rfl
  | none =>
    cases pendingGet s.pending u with
    | some f => rfl
    | none => rfl

theorem pendingGet_append_self (p : List (String × Nat)) (u : String) (n : Nat)
    (h : pendingGet p u = none) : pendingGet (p ++ [(u, n)]) u = some n := by
  rw [pendingGet, List.find?_append]
  have hf : p.find? (fun q => q.1 == u) = none := by
    rw [pendingGet] at h
    exact Option.map_eq_none'.mp h
  rw [hf, Option.none_or, List.find?_cons_of_pos _ (by simp)]
  rfl

/-! ## C7 — cache capacity and eviction (confirmed) -/

/-- C7: starting from the empty cache, any sequence of `setCachedResult`
calls leaves at most `MAX_CACHE_SIZE` (50) entries — one put on a cache
within capacity stays within capacity; and whenever a put pushes the entry
count over capacity, exactly one entry is evicted, namely the first entry
in map-iteration order attaining the minimal `timestamp` (the head of the
stable ascending-timestamp sort). -/
theorem cache_capacity_and_eviction :
    (∀ ops : List (String × String × Nat),
      (applyPuts [] ops).length ≤ MAX_CACHE_SIZE) ∧
    (∀ (c : Cache) (u html : String) (t : Nat), c.length ≤ MAX_CACHE_SIZE →
      (setCachedResult c u html t).length ≤ MAX_CACHE_SIZE) ∧
    (∀ (c : Cache) (u html : String) (t : Nat),
      (c.map Prod.fst).Nodup →
      MAX_CACHE_SIZE < (mapSet c u ⟨html, t⟩).length →
      ∃ o, firstOldest (mapSet c u ⟨html, t⟩) = some o ∧
        setCachedResult c u html t = mapDelete (mapSet c u ⟨html, t⟩) o.1 ∧
        (setCachedResult c u html t).length + 1
          = (mapSet c u ⟨html, t⟩).length) := by
  have hstep := setCachedResult_length_le
  have hseq : ∀ (ops : List (String × String × Nat)) (c : Cache),
      c.length ≤ MAX_CACHE_SIZE → (applyPuts c ops).length ≤ MAX_CACHE_SIZE := by
    intro ops
    induction ops with
    | nil => intro c h; exact h
    | cons op rest ih =>
      intro c h
      obtain ⟨u, html, t⟩ := op
      exact ih _ (hstep c u html t h)
  refine ⟨fun ops => hseq ops [] (by simp [MAX_CACHE_SIZE]), hstep, ?_⟩
  intro c u html t hnd hov
  obtain ⟨o, ho⟩ := firstOldest_isSome (mapSet c u ⟨html, t⟩) (by
    intro he
    rw [he] at hov
    simp [MAX_CACHE_SIZE] at hov)
  obtain ⟨rest, hrest⟩ : ∃ rest,
      sortByTimestamp (mapSet c u ⟨html, t⟩) = o :: rest := by
    have hh := sortByTimestamp_head? (mapSet c u ⟨html, t⟩)
    rw [ho] at hh
    cases hsrt : sortByTimestamp (mapSet c u ⟨html, t⟩) with
    | nil => rw [hsrt] at hh; exact absurd hh (by simp)
    | cons a r =>
      rw [hsrt] at hh
      simp only [List.head?_cons, Option.some.injEq] at hh
      exact ⟨r, by rw [hh]⟩
  have hmem : o ∈ mapSet c u ⟨html, t⟩ := firstOldest_mem _ o ho
  have hexact := mapDelete_length_nodup (mapSet c u ⟨html, t⟩) o.1
    (mapSet_keys_nodup c u ⟨html, t⟩ hnd) ⟨o, hmem, rfl⟩
  refine ⟨o, ho, ?_, ?_⟩
  · simp only [setCachedResult]
    rw [if_pos hov, hrest]
  · simp only [setCachedResult]
    rw [if_pos hov, hrest]
    exact hexact

/-- C7 witness: one put on an in-capacity cache stays in capacity. -/
theorem cache_capacity_and_eviction_witness :
    (setCachedResult [] "u" "h" 0).length ≤ MAX_CACHE_SIZE :=
  cache_capacity_and_eviction.2.1 [] "u" "h" 0 (by decide)

/-! ## C6 — fresh cache hits and stale entries (confirmed) -/

/-- C6: after a successful fetch of `u` settles at time `tc` (under a
monotone clock and the cache-capacity invariant), a `scrape(u)` issued
within the TTL window hits the cache: it returns the cached markup with the
coordinator state untouched — no navigation, no rate-limit consumption, no
dedup bookkeeping; a cache entry whose age reached the TTL reads as absent;
and the synchronous prefix of `scrape` never modifies the cache, so a stale
entry is not deleted by the lookup. -/
theorem cached_fetch_no_refetch :
    (∀ (s : PipelineState) (u html : String) (tc t : Nat),
      s.cache.length ≤ MAX_CACHE_SIZE →
      (∀ p ∈ s.cache, p.2.timestamp ≤ tc) →
      t - tc < CACHE_DURATION →
      scrapeSync (completeFetch s u (.success html) tc) u t
        = (CallTicket.cachedHtml html, completeFetch s u (.success html) tc) ∧
      navigations (scrapeSync (completeFetch s u (.success html) tc) u t).1 = 0 ∧
      consumesRateLimit
        (scrapeSync (completeFetch s u (.success html) tc) u t).1 = false) ∧
    (∀ (cache : Cache) (u : String) (t : Nat) (e : CacheEntry),
      mapGet cache u = some e → CACHE_DURATION ≤ t - e.timestamp →
      getCachedResult cache u t = none) ∧
    (∀ (s : PipelineState) (u : String) (t : Nat),
      (scrapeSync s u t).2.cache = s.cache) := by
  refine ⟨?_, ?_, scrapeSync_cache_eq⟩
  · intro s u html tc t hle hts hfresh
    have hget : getCachedResult (completeFetch s u (.success html) tc).cache u t
        = some html := by
      show getCachedResult (setCachedResult s.cache u html tc) u t = some html
      exact getCachedResult_after_set s.cache u html tc t hle hts hfresh
    have hmain : scrapeSync (completeFetch s u (.success html) tc) u t
        = (CallTicket.cachedHtml html, completeFetch s u (.success html) tc) := by
      simp only [scrapeSync, hget]
    refine ⟨hmain, ?_, ?_⟩ <;> rw [hmain] <;> rfl
  · intro cache u t e hm hstale
    simp only [getCachedResult, hm]
    rw [if_neg (by omega)]

/-- C6 witness: a fetch of `"u"` succeeding at time `0` is served from the
cache at time `5` with the state unchanged. -/
theorem cached_fetch_no_refetch_witness :
    scrapeSync (completeFetch ⟨[], [], 0⟩ "u" (.success "H") 0) "u" 5
      = (CallTicket.cachedHtml "H", completeFetch ⟨[], [], 0⟩ "u" (.success "H") 0) :=
  (cached_fetch_no_refetch.1 ⟨[], [], 0⟩ "u" "H" 0 5 (by decide) (by decide)
    (by decide)).1

/-! ## C1 — concurrent dedup (confirmed) -/

/-- C1: from a state with no fresh cache entry and no pending fetch for
`u`, the first `scrape(u)` starts the fetch with a fresh identifier, and a
second `scrape(u)` issued before that fetch completes attaches to the same
identifier: together they perform exactly one navigation, and for every
resolution of the underlying fetches both callers observe the same
outcome. -/
theorem scrape_dedup_single_navigation (s : PipelineState) (u : String)
    (t1 t2 : Nat)
    (hc : getCachedResult s.cache u t1 = none)
    (hp : pendingGet s.pending u = none)
    (ht : t1 ≤ t2) :
    (scrapeSync s u t1).1 = CallTicket.started s.nextFetchId ∧
    (scrapeSync (scrapeSync s u t1).2 u t2).1
      = CallTicket.attached s.nextFetchId ∧
    navigations (scrapeSync s u t1).1
      + navigations (scrapeSync (scrapeSync s u t1).2 u t2).1 = 1 ∧
    ∀ resolve, ticketOutcome (scrapeSync s u t1).1 resolve
      = ticketOutcome (scrapeSync (scrapeSync s u t1).2 u t2).1 resolve := by
  have h1 : scrapeSync s u t1 = (CallTicket.started s.nextFetchId,
      { s with pending := s.pending ++ [(u, s.nextFetchId)],
               nextFetchId := s.nextFetchId + 1 }) := by
    simp only [scrapeSync, hc, hp]
  have hc2 : getCachedResult ({ s with
      pending := s.pending ++ [(u, s.nextFetchId)],
      nextFetchId := s.nextFetchId + 1 } : PipelineState).cache u t2 = none :=
    getCachedResult_none_mono s.cache u t1 t2 ht hc
  have hp2 : pendingGet ({ s with
      pending := s.pending ++ [(u, s.nextFetchId)],
      nextFetchId := s.nextFetchId + 1 } : PipelineState).pending u
      = some s.nextFetchId :=
    pendingGet_append_self s.pending u s.nextFetchId hp
  have h2 : scrapeSync ({ s with
      pending := s.pending ++ [(u, s.nextFetchId)],
      nextFetchId := s.nextFetchId + 1 } : PipelineState) u t2
      = (CallTicket.attached s.nextFetchId,
         { s with pending := s.pending ++ [(u, s.nextFetchId)],
                  nextFetchId := s.nextFetchId + 1 }) := by
    simp only [scrapeSync, hc2, hp2]
  refine ⟨by rw [h1], ?_, ?_, ?_⟩
  · simp only [h1, h2]
  · simp only [h1, h2]; rfl
  · intro resolve
    simp only [h1, h2]; rfl

/-- C1 witness: from the empty state, two `scrape` calls for the same URL
share fetch identifier `0` and perform one navigation in total. -/
theorem scrape_dedup_single_navigation_witness :
    navigations (scrapeSync (⟨[], [], 0⟩ : PipelineState) "u" 0).1
      + navigations
          (scrapeSync (scrapeSync (⟨[], [], 0⟩ : PipelineState) "u" 0).2 "u" 0).1
      = 1 :=
  (scrape_dedup_single_navigation ⟨[], [], 0⟩ "u" 0 0 (by decide) (by decide)
    (by decide)).2.2.1

end JobSearch
